import Mathlib

set_option autoImplicit false
set_option linter.unusedVariables false

namespace RLSpec

/-!
Shallow embedding of the repository `software-samurai/rl`:
  * the distributed data-collection subsystem exercised by
    `src/test/test_distributed.py`;
  * the RLHF training loops `src/examples/rlhf/train_reward.py` and
    `src/examples/rlhf/train_rlhf.py`.
-/

/-! ### Distributed data collectors

The collector implementations (`DistributedDataCollector`, `RPCDataCollector`,
`DistributedSyncDataCollector` and the inner classes `SyncDataCollector`,
`MultiSyncDataCollector`, `MultiaSyncDataCollector`) are part of this
repository but are not under `src/`; only their test suite
`src/test/test_distributed.py` is.  They are therefore modelled from the
spec sentence: "a system that runs one or more simulated environments across
processes/nodes, batches their trajectories, and streams them to a learner
while supporting live policy-weight updates."
-/

/-- the inner collector class passed as `collector_class` in the tests. -/
inductive CollectorClass where
  | syncDC
  | multiSyncDC
  | multiaSyncDC
deriving DecidableEq, Repr

/-- configuration dimensions the tests range over: number of environments,
inner collector class, and sync mode. -/
structure CollectorConfig where
  numEnvs : Nat
  collectorClass : CollectorClass
  sync : Bool
deriving DecidableEq, Repr

/-- Modelled from the spec: the number of batches a distributed collector
yields for a run of `total_frames` frames delivered `frames_per_batch` at a
time, i.e. the ceiling of `total_frames / frames_per_batch` (the collector
keeps streaming full batches until at least `total_frames` frames have been
delivered). -/
def numBatches (total_frames frames_per_batch : Nat) : Nat :=
  (total_frames + frames_per_batch - 1) / frames_per_batch

/-- Modelled from the spec: the sizes (`data.numel()`) of the successive
batches yielded while iterating a distributed collector.  Per the spec the
collector batches trajectories into fixed-size batches of
`frames_per_batch` frames; the number of environments, the inner collector
class and the sync mode do not change the batch shape. -/
def collectorBatchSizes (cfg : CollectorConfig) (total_frames frames_per_batch : Nat) :
    List Nat :=
  List.replicate (numBatches total_frames frames_per_batch) frames_per_batch

theorem collectorBatchSizes_sum (cfg : CollectorConfig) (T F : Nat) :
    (collectorBatchSizes cfg T F).sum = numBatches T F * F := by
  simp [collectorBatchSizes, List.sum_replicate, smul_eq_mul]

theorem numBatches_of_dvd (T F : Nat) (hF : 0 < F) (h : F ∣ T) :
    numBatches T F = T / F := by
  obtain ⟨k, rfl⟩ := h
  unfold numBatches
  have h1 : F * k + F - 1 = (F - 1) + F * k := by omega
  rw [h1, Nat.add_mul_div_left _ _ hF, Nat.div_eq_of_lt (by omega),
    Nat.mul_div_cancel_left _ hF]
  omega

theorem numBatches_of_not_dvd (T F : Nat) (hF : 0 < F) (h : ¬ F ∣ T) :
    numBatches T F = T / F + 1 := by
  have hr : T % F ≠ 0 := fun h0 => h (Nat.dvd_iff_mod_eq_zero.mpr h0)
  have hrlt : T % F < F := Nat.mod_lt _ hF
  have hT := Nat.div_add_mod T F
  unfold numBatches
  have h1 : T + F - 1 = (T % F - 1) + F * (T / F + 1) := by
    rw [Nat.mul_add, Nat.mul_one]
    omega
  rw [h1, Nat.add_mul_div_left _ _ hF, Nat.div_eq_of_lt (by omega)]
  omega

/-- C1: for every distributed collector configuration (any number of
environments, inner collector class and sync mode) with a frames-per-batch
value `F`, every batch yielded while iterating the collector contains
exactly `F` frames. -/
theorem distributed_collector_batch_numel (cfg : CollectorConfig)
    (total_frames frames_per_batch : Nat) :
    ∀ n ∈ collectorBatchSizes cfg total_frames frames_per_batch,
      n = frames_per_batch := by
  intro n hn
  exact List.eq_of_mem_replicate hn

theorem distributed_collector_batch_numel_witness :
    50 ∈ collectorBatchSizes ⟨2, CollectorClass.multiSyncDC, true⟩ 1000 50 ∧
      (50 : Nat) = 50 :=
  ⟨by decide,
    distributed_collector_batch_numel ⟨2, CollectorClass.multiSyncDC, true⟩ 1000 50
      50 (by decide)⟩

/-- C2: the total number of frames delivered over a complete iteration of a
distributed collector with `total_frames = T` and `frames_per_batch = F`
equals `F * ceil(T / F)`: exactly `T` when `F` divides `T`, and the next
multiple of `F` above `T` (namely `F * (T / F + 1)`, which exceeds `T` by
less than `F`) otherwise. -/
theorem distributed_collector_total_frames (cfg : CollectorConfig)
    (T F : Nat) (hF : 0 < F) :
    (collectorBatchSizes cfg T F).sum = F * ((T + F - 1) / F) ∧
    (F ∣ T → (collectorBatchSizes cfg T F).sum = T) ∧
    (¬ F ∣ T →
      (collectorBatchSizes cfg T F).sum = F * (T / F + 1) ∧
      T < (collectorBatchSizes cfg T F).sum ∧
      (collectorBatchSizes cfg T F).sum < T + F) := by
  refine ⟨?_, ?_, ?_⟩
  · rw [collectorBatchSizes_sum, Nat.mul_comm]
    rfl
  · intro h
    rw [collectorBatchSizes_sum, numBatches_of_dvd T F hF h]
    exact Nat.div_mul_cancel h
  · intro h
    have hr : T % F ≠ 0 := fun h0 => h (Nat.dvd_iff_mod_eq_zero.mpr h0)
    have hrlt : T % F < F := Nat.mod_lt _ hF
    have hT : T / F * F + T % F = T := Nat.div_add_mod' T F
    rw [collectorBatchSizes_sum, numBatches_of_not_dvd T F hF h]
    refine ⟨Nat.mul_comm _ _, ?_, ?_⟩
    · rw [Nat.add_mul, Nat.one_mul]
      omega
    · rw [Nat.add_mul, Nat.one_mul]
      omega

theorem distributed_collector_total_frames_witness :
    (collectorBatchSizes ⟨2, CollectorClass.syncDC, true⟩ 1000 300).sum =
        300 * (1000 / 300 + 1) ∧
      1000 < (collectorBatchSizes ⟨2, CollectorClass.syncDC, true⟩ 1000 300).sum ∧
      (collectorBatchSizes ⟨2, CollectorClass.syncDC, true⟩ 1000 300).sum <
        1000 + 300 :=
  (distributed_collector_total_frames ⟨2, CollectorClass.syncDC, true⟩ 1000 300
      (by decide)).2.2 (by decide)

/-! ### Live policy-weight updates (C3, C4) -/

/-- state shared between the trainer process and the remote workers in the
update-policy tests: the trainer's policy weight and the weight currently
held by the workers. -/
structure PolicyWeights where
  trainerWeight : Nat
  workerWeight : Nat
deriving DecidableEq, Repr

/-- Modelled from the spec: one step of the loop of
`DistributedCollectorBase._test_distributed_collector_updatepolicy`.  The
collector yields a batch of `F` actions computed with the workers' current
policy weight (a `CountingPolicy` writes its weight into every action);
after the first batch (index 0) the trainer increments its weight and calls
`update_policy_weights_()`, which transmits the trainer weight to the
workers (the spec's "live policy-weight updates"). -/
def updatePolicyStep (F i : Nat) (s : PolicyWeights) : List Nat × PolicyWeights :=
  let batch := List.replicate F s.workerWeight
  if i = 0 then
    (batch, ⟨s.trainerWeight + 1, s.trainerWeight + 1⟩)
  else
    (batch, s)

/-- batches yielded from batch index `i` on, with `n` batches remaining. -/
def runUpdatePolicyAux (F : Nat) : Nat → Nat → PolicyWeights → List (List Nat)
  | _, 0, _ => []
  | i, n + 1, s =>
    (updatePolicyStep F i s).1 ::
      runUpdatePolicyAux F (i + 1) n (updatePolicyStep F i s).2

/-- Modelled from the spec: the action batches observed when iterating a
`DistributedDataCollector` or `RPCDataCollector` (any inner collector class
`cls`, any sync mode) over `CountingEnv` environments with a
`CountingPolicy` of initial weight 1, while the trainer increments the
weight to 2 and pushes it with `update_policy_weights_()` right after the
first batch.  `nb` batches of `F` actions each are yielded. -/
def runUpdatePolicy (cls : CollectorClass) (sync : Bool) (F nb : Nat) :
    List (List Nat) :=
  runUpdatePolicyAux F 0 nb ⟨1, 1⟩

theorem getLast?_replicate_succ {α : Type} (x : α) (n : Nat) :
    (List.replicate (n + 1) x).getLast? = some x := by
  induction n with
  | zero => rfl
  | succ n ih =>
    rw [List.replicate_succ, List.replicate_succ, List.getLast?_cons_cons,
      ← List.replicate_succ]
    exact ih

theorem runUpdatePolicyAux_const (F : Nat) :
    ∀ (n i : Nat) (s : PolicyWeights),
      runUpdatePolicyAux F (i + 1) n s =
        List.replicate n (List.replicate F s.workerWeight) := by
  intro n
  induction n with
  | zero => intro i s; rfl
  | succ n ih =>
    intro i s
    rw [runUpdatePolicyAux, List.replicate_succ]
    have hstep : updatePolicyStep F (i + 1) s =
        (List.replicate F s.workerWeight, s) := by
      simp [updatePolicyStep]
    rw [hstep]
    exact congrArg _ (ih (i + 1) s)

theorem runUpdatePolicy_eq (cls : CollectorClass) (sync : Bool) (F nb : Nat)
    (hnb : 1 ≤ nb) :
    runUpdatePolicy cls sync F nb =
      List.replicate F 1 :: List.replicate (nb - 1) (List.replicate F 2) := by
  obtain ⟨m, rfl⟩ : ∃ m, nb = m + 1 := ⟨nb - 1, by omega⟩
  unfold runUpdatePolicy
  rw [runUpdatePolicyAux]
  have hstep : updatePolicyStep F 0 (⟨1, 1⟩ : PolicyWeights) =
      (List.replicate F 1, ⟨2, 2⟩) := by
    simp [updatePolicyStep]
  rw [hstep]
  simp [runUpdatePolicyAux_const F m 0 ⟨2, 2⟩]

/-- C3: for `DistributedDataCollector` and `RPCDataCollector` running
`CountingEnv` environments with a `CountingPolicy`, if after receiving the
first batch the trainer increments the policy weight from 1 to 2 and calls
`update_policy_weights_()`, then the first batch's actions are all 1 and
the last batch's actions are all 2, for every inner collector class and
both sync modes. -/
theorem distributed_collector_updatepolicy (cls : CollectorClass) (sync : Bool)
    (F nb : Nat) (hnb : 2 ≤ nb) :
    (runUpdatePolicy cls sync F nb).head? = some (List.replicate F 1) ∧
    (runUpdatePolicy cls sync F nb).getLast? = some (List.replicate F 2) ∧
    (∀ b, (runUpdatePolicy cls sync F nb).head? = some b → ∀ a ∈ b, a = 1) ∧
    (∀ b, (runUpdatePolicy cls sync F nb).getLast? = some b → ∀ a ∈ b, a = 2) := by
  obtain ⟨m, rfl⟩ : ∃ m, nb = m + 2 := ⟨nb - 2, by omega⟩
  rw [runUpdatePolicy_eq cls sync F (m + 2) (by omega)]
  have hlast : (List.replicate F 1 ::
      List.replicate (m + 2 - 1) (List.replicate F 2)).getLast? =
      some (List.replicate F 2) := by
    have h1 : m + 2 - 1 = m + 1 := by omega
    rw [h1, List.replicate_succ, List.getLast?_cons_cons, ← List.replicate_succ]
    exact getLast?_replicate_succ _ m
  refine ⟨rfl, hlast, ?_, ?_⟩
  · intro b hb a ha
    rw [List.head?_cons, Option.some_inj] at hb
    subst hb
    exact List.eq_of_mem_replicate ha
  · intro b hb a ha
    rw [hlast, Option.some_inj] at hb
    subst hb
    exact List.eq_of_mem_replicate ha

theorem distributed_collector_updatepolicy_witness :
    (runUpdatePolicy CollectorClass.multiSyncDC true 50 40).head? =
        some (List.replicate 50 1) ∧
      (runUpdatePolicy CollectorClass.multiSyncDC true 50 40).getLast? =
        some (List.replicate 50 2) :=
  ⟨(distributed_collector_updatepolicy CollectorClass.multiSyncDC true 50 40
      (by decide)).1,
    (distributed_collector_updatepolicy CollectorClass.multiSyncDC true 50 40
      (by decide)).2.1⟩

/-- Modelled from the spec: one step of the loop of
`TestSyncCollector._test_distributed_collector_updatepolicy` for
`DistributedSyncDataCollector`.  Before collecting batch `i > 0` the
collector automatically pushes the trainer's weights to the workers
whenever `update_interval` batches have elapsed (`i % update_interval = 0`);
the batch is collected with the workers' weight; after the first batch the
trainer increments its weight without any explicit update call. -/
def syncCollectorStep (F interval i : Nat) (s : PolicyWeights) :
    List Nat × PolicyWeights :=
  let s1 := if i ≠ 0 ∧ i % interval = 0 then
    ⟨s.trainerWeight, s.trainerWeight⟩ else s
  let batch := List.replicate F s1.workerWeight
  if i = 0 then
    (batch, ⟨s1.trainerWeight + 1, s1.workerWeight⟩)
  else
    (batch, s1)

/-- batches yielded by the sync collector from batch index `i` on, with `n`
batches remaining. -/
def runSyncCollectorAux (F interval : Nat) :
    Nat → Nat → PolicyWeights → List (List Nat)
  | _, 0, _ => []
  | i, n + 1, s =>
    (syncCollectorStep F interval i s).1 ::
      runSyncCollectorAux F interval (i + 1) n (syncCollectorStep F interval i s).2

/-- Modelled from the spec: the action batches observed when iterating a
`DistributedSyncDataCollector` (any inner collector class `cls`) over
`CountingEnv` environments with a `CountingPolicy` of initial weight 1,
while the trainer increments the weight to 2 after the first batch without
calling `update_policy_weights_()`; the collector itself refreshes the
worker weights every `interval` batches.  `nb` batches of `F` actions each
are yielded. -/
def runSyncCollector (cls : CollectorClass) (F nb interval : Nat) :
    List (List Nat) :=
  runSyncCollectorAux F interval 0 nb ⟨1, 1⟩

theorem syncCollectorStep_zero (F interval : Nat) (s : PolicyWeights) :
    syncCollectorStep F interval 0 s =
      (List.replicate F s.workerWeight, ⟨s.trainerWeight + 1, s.workerWeight⟩) := by
  simp [syncCollectorStep]

theorem runSyncCollectorAux_interval_one (F : Nat) :
    ∀ (n i : Nat) (s : PolicyWeights),
      runSyncCollectorAux F 1 (i + 1) n s =
        List.replicate n (List.replicate F s.trainerWeight) := by
  intro n
  induction n with
  | zero => intro i s; rfl
  | succ n ih =>
    intro i s
    rw [runSyncCollectorAux, List.replicate_succ]
    have hstep : syncCollectorStep F 1 (i + 1) s =
        (List.replicate F s.trainerWeight,
          ⟨s.trainerWeight, s.trainerWeight⟩) := by
      simp [syncCollectorStep, Nat.mod_one]
    rw [hstep]
    exact congrArg _ (ih (i + 1) ⟨s.trainerWeight, s.trainerWeight⟩)

theorem runSyncCollectorAux_no_sync (F interval : Nat) :
    ∀ (n i : Nat) (s : PolicyWeights), 0 < i → i + n ≤ interval →
      runSyncCollectorAux F interval i n s =
        List.replicate n (List.replicate F s.workerWeight) := by
  intro n
  induction n with
  | zero => intro i s hi hle; rfl
  | succ n ih =>
    intro i s hi hle
    rw [runSyncCollectorAux, List.replicate_succ]
    have hmod : i % interval = i := Nat.mod_eq_of_lt (by omega)
    have hstep : syncCollectorStep F interval i s =
        (List.replicate F s.workerWeight, s) := by
      have hmod0 : i % interval ≠ 0 := by omega
      simp [syncCollectorStep, hmod0, Nat.pos_iff_ne_zero.mp hi]
    rw [hstep]
    exact congrArg _ (ih (i + 1) s (by omega) (by omega))

theorem runSyncCollector_interval_one (cls : CollectorClass) (F nb : Nat)
    (hnb : 1 ≤ nb) :
    runSyncCollector cls F nb 1 =
      List.replicate F 1 :: List.replicate (nb - 1) (List.replicate F 2) := by
  obtain ⟨m, rfl⟩ : ∃ m, nb = m + 1 := ⟨nb - 1, by omega⟩
  unfold runSyncCollector
  rw [runSyncCollectorAux, syncCollectorStep_zero]
  simp [runSyncCollectorAux_interval_one F m 0 ⟨2, 1⟩]

theorem runSyncCollector_no_sync (cls : CollectorClass) (F nb interval : Nat)
    (hnb : 1 ≤ nb) (hle : nb ≤ interval) :
    runSyncCollector cls F nb interval =
      List.replicate nb (List.replicate F 1) := by
  obtain ⟨m, rfl⟩ : ∃ m, nb = m + 1 := ⟨nb - 1, by omega⟩
  unfold runSyncCollector
  rw [runSyncCollectorAux, syncCollectorStep_zero, List.replicate_succ]
  exact congrArg _
    (runSyncCollectorAux_no_sync F interval m 1 ⟨2, 1⟩ (by omega) (by omega))

/-- C4: for `DistributedSyncDataCollector`, a policy weight change made on
the trainer after the first batch propagates to the workers without any
explicit update call exactly when the update interval is reached: with
`update_interval = 1` the last batch's actions all equal the new weight 2,
while with an interval never reached within the run (`nb ≤ interval`, as
with `update_interval = 1000000`) the last batch's actions all still equal
the original weight 1. -/
theorem distributed_sync_collector_update_interval (cls : CollectorClass)
    (F nb interval : Nat) (hnb : 2 ≤ nb) :
    ((runSyncCollector cls F nb 1).head? = some (List.replicate F 1) ∧
      (runSyncCollector cls F nb 1).getLast? = some (List.replicate F 2)) ∧
    (nb ≤ interval →
      (runSyncCollector cls F nb interval).head? = some (List.replicate F 1) ∧
      (runSyncCollector cls F nb interval).getLast? =
        some (List.replicate F 1)) := by
  constructor
  · rw [runSyncCollector_interval_one cls F nb (by omega)]
    refine ⟨rfl, ?_⟩
    obtain ⟨m, rfl⟩ : ∃ m, nb = m + 2 := ⟨nb - 2, by omega⟩
    have h1 : m + 2 - 1 = m + 1 := by omega
    rw [h1, List.replicate_succ, List.getLast?_cons_cons, ← List.replicate_succ]
    exact getLast?_replicate_succ _ m
  · intro hle
    rw [runSyncCollector_no_sync cls F nb interval (by omega) hle]
    obtain ⟨m, rfl⟩ : ∃ m, nb = m + 2 := ⟨nb - 2, by omega⟩
    rw [List.replicate_succ, List.head?_cons, List.replicate_succ,
      List.getLast?_cons_cons, ← List.replicate_succ]
    exact ⟨rfl, getLast?_replicate_succ _ m⟩

theorem distributed_sync_collector_update_interval_witness :
    (runSyncCollector CollectorClass.syncDC 50 40 1).getLast? =
        some (List.replicate 50 2) ∧
      (runSyncCollector CollectorClass.syncDC 50 40 1000000).getLast? =
        some (List.replicate 50 1) :=
  ⟨(distributed_sync_collector_update_interval CollectorClass.syncDC 50 40 1000000
      (by decide)).1.2,
    ((distributed_sync_collector_update_interval CollectorClass.syncDC 50 40 1000000
      (by decide)).2 (by decide)).2⟩

/-! ### flatten_td (C5)

A tensordict of batch shape `[B, T]` is embedded as a list of `B` rows of
`T` steps; a step is its payload paired with the boolean `('next', 'done')`
flag.  All tensor operations in `flatten_td` act along the step dimension
independently in each row, so they are embedded row by row; `squeeze()`
drops the trailing singleton dimension of the `[B, T, 1]` mask. -/

/-- cumulative boolean OR with accumulator `acc`: entry `t` of the result
is `acc || l[0] || ... || l[t]`.  This is the boolean content of
`cumsum(-2).bool()` applied along the step dimension. -/
def cumAny : List Bool → Bool → List Bool
  | [], _ => []
  | b :: bs, acc => (acc || b) :: cumAny bs (acc || b)

/-- the boolean mask of one row computed by `flatten_td`
(src/examples/rlhf/train_rlhf.py lines 27-30): the done flags are shifted
one step towards the end (`mask = zeros_like(done); mask[..., 1:, :] =
done[..., :-1, :]`), cumulated with `cumsum(-2).bool()` and negated with
`~`. -/
def maskRow {α : Type} (row : List (α × Bool)) : List Bool :=
  (cumAny (false :: (row.map Prod.snd).dropLast) false).map not

/-- boolean-mask selection `td[mask]` restricted to one row: keeps the
entries whose mask bit is true, in order. -/
def applyMask {α : Type} : List (α × Bool) → List Bool → List (α × Bool)
  | [], _ => []
  | _ :: _, [] => []
  | x :: xs, m :: ms => if m then x :: applyMask xs ms else applyMask xs ms

/-- shallow embedding of `flatten_td` (src/examples/rlhf/train_rlhf.py
lines 22-31): the row masks are computed from the shifted, cumulated and
negated done flags, and boolean-mask indexing `td[mask]` returns the
selected entries in row-major order. -/
def flatten_td {α : Type} (td : List (List (α × Bool))) : List (α × Bool) :=
  (td.map (fun row => applyMask row (maskRow row))).flatten

/-- specification-side description of one row of the output of
`flatten_td`, following the claim: the steps from index 0 up to and
including the first step whose done flag is true, all of them when no step
is done. -/
def takeToFirstDone {α : Type} : List (α × Bool) → List (α × Bool)
  | [] => []
  | x :: xs => if x.2 then [x] else x :: takeToFirstDone xs

/-- proof-side view of a row mask: bit `t` is true exactly when no done
flag strictly before `t` is set. -/
def keepMask : List Bool → List Bool
  | [] => []
  | d :: ds => true :: (if d then List.replicate ds.length false else keepMask ds)

theorem cumAny_true (l : List Bool) :
    cumAny l true = List.replicate l.length true := by
  induction l with
  | nil => rfl
  | cons b bs ih => simp [cumAny, ih, List.replicate_succ]

theorem cumAny_false_cons (l : List Bool) :
    cumAny (false :: l) false = false :: cumAny l false := by
  simp [cumAny]

theorem maskRow_eq_keepMask_aux :
    ∀ ds : List Bool, ds ≠ [] →
      (cumAny (false :: ds.dropLast) false).map not = keepMask ds := by
  intro ds
  induction ds with
  | nil => intro h; exact absurd rfl h
  | cons d ds2 ih =>
    intro _
    cases ds2 with
    | nil => cases d <;> rfl
    | cons e ds3 =>
      have hdrop : (d :: e :: ds3).dropLast = d :: (e :: ds3).dropLast := by
        simp [List.dropLast]
      rw [hdrop, cumAny_false_cons]
      cases d with
      | true =>
        have hlen : ((e :: ds3).dropLast).length = ds3.length := by
          simp [List.length_dropLast]
        simp [cumAny, cumAny_true, keepMask, hlen, List.replicate_succ]
      | false =>
        have ih2 := ih (by simp)
        rw [cumAny_false_cons] at ih2
        simp only [List.map_cons, Bool.not_false] at ih2 ⊢
        simp [cumAny, keepMask, ih2]

theorem applyMask_replicate_false {α : Type} (xs : List (α × Bool)) :
    applyMask xs (List.replicate xs.length false) = [] := by
  induction xs with
  | nil => rfl
  | cons x xs ih => simp [applyMask, List.replicate_succ, ih]

theorem applyMask_keepMask {α : Type} (row : List (α × Bool)) :
    applyMask row (keepMask (row.map Prod.snd)) = takeToFirstDone row := by
  induction row with
  | nil => rfl
  | cons x xs ih =>
    cases hx : x.2 with
    | true =>
      simp [keepMask, applyMask, takeToFirstDone, hx, applyMask_replicate_false]
    | false =>
      simp [keepMask, applyMask, takeToFirstDone, hx, ih]

theorem applyMask_maskRow {α : Type} (row : List (α × Bool)) :
    applyMask row (maskRow row) = takeToFirstDone row := by
  cases row with
  | nil => rfl
  | cons x xs =>
    have h : maskRow (x :: xs) = keepMask ((x :: xs).map Prod.snd) :=
      maskRow_eq_keepMask_aux ((x :: xs).map Prod.snd) (by simp)
    rw [h]
    exact applyMask_keepMask (x :: xs)

theorem takeToFirstDone_length_le {α : Type} (row : List (α × Bool)) :
    (takeToFirstDone row).length ≤ row.length := by
  induction row with
  | nil => exact Nat.le_refl 0
  | cons x xs ih =>
    cases hx : x.2 with
    | true => simp [takeToFirstDone, hx]
    | false => simpa [takeToFirstDone, hx] using ih

/-- C5: for every tensordict `td` of batch shape `[B, T]` carrying a
boolean `('next', 'done')` field, `flatten_td td` contains, for each of the
`B` trajectories in order, exactly the steps from index 0 up to and
including the first step whose done flag is true (all `T` steps when no
step is done), concatenated; hence its length `N` satisfies `N ≤ B * T`. -/
theorem flatten_td_truncates {α : Type} (td : List (List (α × Bool))) (T : Nat)
    (hT : ∀ row ∈ td, row.length = T) :
    flatten_td td = (td.map takeToFirstDone).flatten ∧
    (flatten_td td).length ≤ td.length * T := by
  have heq : flatten_td td = (td.map takeToFirstDone).flatten := by
    unfold flatten_td
    exact congrArg List.flatten (List.map_congr_left fun row _ => applyMask_maskRow row)
  refine ⟨heq, ?_⟩
  rw [heq]
  clear heq
  induction td with
  | nil => simp
  | cons row rows ih =>
    have hrowT : row.length = T := hT row (by simp)
    have hrest : ∀ r ∈ rows, r.length = T := fun r hr => hT r (by simp [hr])
    have hrow : (takeToFirstDone row).length ≤ T :=
      hrowT ▸ takeToFirstDone_length_le row
    have := ih hrest
    simp only [List.map_cons, List.flatten_cons, List.length_append, List.length_cons]
    calc (takeToFirstDone row).length + ((rows.map takeToFirstDone).flatten).length
        ≤ T + rows.length * T := Nat.add_le_add hrow this
      _ = (rows.length + 1) * T := by ring

theorem flatten_td_truncates_witness :
    flatten_td [[(0, false), (1, true), (2, false)],
        [(3, false), (4, false), (5, false)]] =
      ([[(0, false), (1, true), (2, false)],
        [(3, false), (4, false), (5, false)]].map takeToFirstDone).flatten ∧
    (flatten_td [[(0, false), (1, true), (2, false)],
        [(3, false), (4, false), (5, false)]]).length ≤ 2 * 3 :=
  flatten_td_truncates
    [[(0, false), (1, true), (2, false)], [(3, false), (4, false), (5, false)]] 3
    (by decide)

/-! ### Evaluation and checkpointing in the trainers (C6, C9)

Validation losses and rewards are rationals; the initial bests
`float("inf")` and `float("-inf")` are the top and bottom elements of
`WithTop ℚ` and `WithBot ℚ`. -/

/-- shallow embedding of the evaluation/checkpoint tail of one iteration of
the reward-model trainer main loop (src/examples/rlhf/train_reward.py lines
112-123): at iterations divisible by `eval_interval` the validation loss is
estimated; when it is strictly below the best seen so far, or
`always_save_checkpoint` is set, the best is overwritten and, since
`it > 0`, a checkpoint is written.  The result is the updated
`best_val_loss` and whether a checkpoint was written. -/
def rewardTrainerEvalStep (eval_interval log_interval : Nat)
    (always_save_checkpoint : Bool) (it : Nat) (val_loss : ℚ)
    (best_val_loss : WithTop ℚ) : WithTop ℚ × Bool :=
  if it % eval_interval = 0 then
    if (val_loss : WithTop ℚ) < best_val_loss ∨ always_save_checkpoint then
      ((val_loss : WithTop ℚ), decide (0 < it))
    else (best_val_loss, false)
  else (best_val_loss, false)

/-- shallow embedding of the evaluation/checkpoint tail of one iteration of
the PPO trainer main loop (src/examples/rlhf/train_rlhf.py lines 205-212):
at iterations divisible by `eval_interval` the validation reward is
estimated; when it is strictly above the best seen so far, or
`always_save_checkpoint` is set, the best is overwritten and, since
`it > 0`, a checkpoint is written. -/
def ppoTrainerEvalStep (eval_interval log_interval : Nat)
    (always_save_checkpoint : Bool) (it : Nat) (val_reward : ℚ)
    (best_val_reward : WithBot ℚ) : WithBot ℚ × Bool :=
  if it % eval_interval = 0 then
    if best_val_reward < (val_reward : WithBot ℚ) ∨ always_save_checkpoint then
      ((val_reward : WithBot ℚ), decide (0 < it))
    else (best_val_reward, false)
  else (best_val_reward, false)

/-- C6: at every iteration `it ≥ 1` that is a multiple of `eval_interval`,
the reward-model trainer writes a checkpoint if and only if the freshly
estimated validation loss is strictly below the best seen so far or
`always_save_checkpoint` is set; the PPO trainer writes one if and only if
the validation reward is strictly above the best so far or
`always_save_checkpoint` is set; at non-evaluation iterations neither
trainer writes a checkpoint. -/
theorem trainer_checkpoint_iff (eval_interval log_interval : Nat)
    (always : Bool) (it : Nat) (hit : 1 ≤ it) (val_loss val_reward : ℚ)
    (bl : WithTop ℚ) (br : WithBot ℚ) :
    ((rewardTrainerEvalStep eval_interval log_interval always it val_loss bl).2 =
        true ↔
      it % eval_interval = 0 ∧ ((val_loss : WithTop ℚ) < bl ∨ always = true)) ∧
    ((ppoTrainerEvalStep eval_interval log_interval always it val_reward br).2 =
        true ↔
      it % eval_interval = 0 ∧ (br < (val_reward : WithBot ℚ) ∨ always = true)) := by
  have h0 : 0 < it := hit
  constructor
  · unfold rewardTrainerEvalStep
    split_ifs with h1 h2
    · simp [h0, h1, h2]
    · simp only [Bool.false_eq_true, false_iff]
      rintro ⟨-, h⟩
      exact h2 (by simpa using h)
    · simp [h1]
  · unfold ppoTrainerEvalStep
    split_ifs with h1 h2
    · simp [h0, h1, h2]
    · simp only [Bool.false_eq_true, false_iff]
      rintro ⟨-, h⟩
      exact h2 (by simpa using h)
    · simp [h1]

theorem trainer_checkpoint_iff_witness :
    (rewardTrainerEvalStep 5 2 false 10 (3 : ℚ) ((4 : ℚ) : WithTop ℚ)).2 = true ∧
    (ppoTrainerEvalStep 5 2 false 7 (3 : ℚ) ((4 : ℚ) : WithBot ℚ)).2 = false := by
  constructor
  · exact (trainer_checkpoint_iff 5 2 false 10 (by decide) 3 3
      ((4 : ℚ) : WithTop ℚ) ((4 : ℚ) : WithBot ℚ)).1.mpr
      ⟨by decide, Or.inl (by exact_mod_cast (by norm_num : (3 : ℚ) < 4))⟩
  · by_contra h
    have h2 := (trainer_checkpoint_iff 5 2 false 7 (by decide) 3 3
      ((4 : ℚ) : WithTop ℚ) ((4 : ℚ) : WithBot ℚ)).2.mp (by
        revert h
        cases hv : (ppoTrainerEvalStep 5 2 false 7 (3 : ℚ) ((4 : ℚ) : WithBot ℚ)).2
        · intro h; exact absurd hv h
        · intro _; rfl)
    omega

/-- C9: when `always_save_checkpoint` is true, every evaluation
unconditionally overwrites `best_val_loss` (reward trainer) and
`best_val_reward` (PPO trainer) with the latest validation value, so the
stored best may move in the worse direction (shown by a concrete instance
where the best loss rises from 1 to 5 and the best reward falls from 5 to
1); when `always_save_checkpoint` is false, `best_val_loss` is
non-increasing and `best_val_reward` is non-decreasing at every step. -/
theorem trainer_best_value_evolution (eval_interval log_interval : Nat)
    (it : Nat) (hit : it % eval_interval = 0) (val_loss val_reward : ℚ)
    (bl : WithTop ℚ) (br : WithBot ℚ) :
    ((rewardTrainerEvalStep eval_interval log_interval true it val_loss bl).1 =
        (val_loss : WithTop ℚ) ∧
      (ppoTrainerEvalStep eval_interval log_interval true it val_reward br).1 =
        (val_reward : WithBot ℚ)) ∧
    ((rewardTrainerEvalStep eval_interval log_interval false it val_loss bl).1 ≤
        bl ∧
      br ≤ (ppoTrainerEvalStep eval_interval log_interval false it val_reward br).1) ∧
    ((rewardTrainerEvalStep 1 1 true 1 (5 : ℚ) ((1 : ℚ) : WithTop ℚ)).1 =
        ((5 : ℚ) : WithTop ℚ) ∧
      ((1 : ℚ) : WithTop ℚ) < ((5 : ℚ) : WithTop ℚ) ∧
      (ppoTrainerEvalStep 1 1 true 1 (1 : ℚ) ((5 : ℚ) : WithBot ℚ)).1 =
        ((1 : ℚ) : WithBot ℚ) ∧
      ((1 : ℚ) : WithBot ℚ) < ((5 : ℚ) : WithBot ℚ)) := by
  refine ⟨⟨?_, ?_⟩, ⟨?_, ?_⟩, ?_, ?_, ?_, ?_⟩
  · simp [rewardTrainerEvalStep, hit]
  · simp [ppoTrainerEvalStep, hit]
  · unfold rewardTrainerEvalStep
    split_ifs with h1
    · rcases h1 with h1 | h1
      · exact le_of_lt h1
      · exact h1.elim
    · exact le_refl bl
  · unfold ppoTrainerEvalStep
    split_ifs with h1
    · rcases h1 with h1 | h1
      · exact le_of_lt h1
      · exact h1.elim
    · exact le_refl br
  · simp [rewardTrainerEvalStep]
  · exact_mod_cast (by norm_num : (1 : ℚ) < 5)
  · simp [ppoTrainerEvalStep]
  · exact_mod_cast (by norm_num : (1 : ℚ) < 5)

theorem trainer_best_value_evolution_witness :
    (rewardTrainerEvalStep 5 2 true 10 (7 : ℚ) ((2 : ℚ) : WithTop ℚ)).1 =
        ((7 : ℚ) : WithTop ℚ) ∧
      (ppoTrainerEvalStep 5 2 true 10 (7 : ℚ) ((9 : ℚ) : WithBot ℚ)).1 =
        ((7 : ℚ) : WithBot ℚ) :=
  (trainer_best_value_evolution 5 2 10 (by decide) 7 7
    ((2 : ℚ) : WithTop ℚ) ((9 : ℚ) : WithBot ℚ)).1

/-! ### The PPO replay buffer (C7) -/

/-- replay-buffer primitive `rb.empty()`: removes every stored item. -/
def rbEmpty {α : Type} (rb : List α) : List α := []

/-- replay-buffer primitive `rb.extend(items)`: appends the items. -/
def rbExtend {α : Type} (rb items : List α) : List α := rb ++ items

/-- shallow embedding of the rollout-collection phase of one outer PPO
iteration (src/examples/rlhf/train_rlhf.py lines 178-188): `rb.empty()` at
the top of the iteration, then `rb.extend(flatten_td(td))` for each rollout
of the inner loop.  Every stored item is tagged with the outer iteration
`it` that produced it so that provenance can be stated; `prev` is whatever
the buffer held when the iteration began. -/
def iterationBuffer {α : Type} (prev : List (Nat × α)) (it : Nat)
    (rollouts : List (List α)) : List (Nat × α) :=
  rollouts.foldl (fun rb batch => rbExtend rb (batch.map (fun x => (it, x))))
    (rbEmpty prev)

theorem mem_iterationBuffer_foldl {α : Type} (it : Nat) :
    ∀ (rollouts : List (List α)) (acc : List (Nat × α)) (x : Nat × α),
      x ∈ rollouts.foldl
        (fun rb batch => rbExtend rb (batch.map (fun y => (it, y)))) acc →
      x ∈ acc ∨ x.1 = it := by
  intro rollouts
  induction rollouts with
  | nil => intro acc x hx; exact Or.inl hx
  | cons b bs ih =>
    intro acc x hx
    rcases ih (rbExtend acc (b.map (fun y => (it, y)))) x hx with h | h
    · rcases List.mem_append.mp h with h | h
      · exact Or.inl h
      · obtain ⟨y, -, rfl⟩ := List.mem_map.mp h
        exact Or.inr rfl
    · exact Or.inr h

/-- C7: the PPO replay buffer is emptied at the start of every outer
iteration before being refilled with the rollouts of that iteration: its
contents after the fill phase do not depend on what it held before, and
every item available to the PPO epochs of iteration `it` — hence every item
of every minibatch drawn from the buffer — was collected during iteration
`it`. -/
theorem ppo_minibatch_freshness {α : Type} (prev : List (Nat × α)) (it : Nat)
    (rollouts : List (List α)) :
    iterationBuffer prev it rollouts = iterationBuffer [] it rollouts ∧
    (∀ x ∈ iterationBuffer prev it rollouts, x.1 = it) ∧
    (∀ minibatch : List (Nat × α),
      (∀ x ∈ minibatch, x ∈ iterationBuffer prev it rollouts) →
      ∀ x ∈ minibatch, x.1 = it) := by
  have hmem : ∀ x ∈ iterationBuffer prev it rollouts, x.1 = it := by
    intro x hx
    rcases mem_iterationBuffer_foldl it rollouts (rbEmpty prev) x hx with h | h
    · exact absurd h (List.not_mem_nil x)
    · exact h
  exact ⟨rfl, hmem, fun mb hmb x hx => hmem x (hmb x hx)⟩

theorem ppo_minibatch_freshness_witness :
    iterationBuffer [(0, 7)] 5 [[1, 2], [3]] =
        iterationBuffer ([] : List (Nat × Nat)) 5 [[1, 2], [3]] ∧
      ((5, 1) : Nat × Nat).1 = 5 :=
  ⟨(ppo_minibatch_freshness [(0, 7)] 5 [[1, 2], [3]]).1,
    (ppo_minibatch_freshness [(0, 7)] 5 [[1, 2], [3]]).2.1 (5, 1) (by decide)⟩

/-! ### Layer freezing (C8) -/

/-- Python slice `xs[:-u]` as it appears in `layers[:-num_unfrozen]`: the
list without its last `u` elements when `u ≥ 1`, but the empty list when
`u = 0`, because Python reads `xs[:-0]` as `xs[:0]`. -/
def sliceDropLastPy {α : Type} (xs : List α) (u : Nat) : List α :=
  if u = 0 then [] else xs.take (xs.length - u)

/-- shallow embedding of `num_unfrozen = int(0.3 * num_layers)`
(src/examples/rlhf/train_reward.py line 80, train_rlhf.py line 141): Python
evaluates it in floating point, which coincides with `⌊3 n / 10⌋` for every
realistic layer count. -/
def num_unfrozen (num_layers : Nat) : Nat := 3 * num_layers / 10

/-- indices of the transformer layers whose `requires_grad` is set to
`False` by `for layer in layers[:-num_unfrozen]: layer.requires_grad_(False)`
in both trainers, out of `num_layers` layers indexed `0 .. num_layers - 1`. -/
def frozenLayers (num_layers : Nat) : List Nat :=
  sliceDropLastPy (List.range num_layers) (num_unfrozen num_layers)

/-- C8: with `n` transformer layers and `u = ⌊0.3 * n⌋`: when `u ≥ 1`
exactly the first `n - u` layers are frozen and the last `u` remain
trainable; for `n = 12`, `u = 3` and 9 layers (75 percent) are frozen; when
`n ≤ 3`, `u = 0`, the slice `layers[:-0]` is empty and no layer is frozen
at all. -/
theorem layer_freezing (n : Nat) :
    (1 ≤ num_unfrozen n → frozenLayers n = List.range (n - num_unfrozen n)) ∧
    (n ≤ 3 → num_unfrozen n = 0 ∧ frozenLayers n = []) ∧
    (num_unfrozen 12 = 3 ∧ frozenLayers 12 = List.range 9) := by
  refine ⟨?_, ?_, by decide, by decide⟩
  · intro hu
    unfold frozenLayers sliceDropLastPy
    rw [if_neg (by omega), List.length_range, List.take_range]
    congr 1
    omega
  · intro hn
    have hu : num_unfrozen n = 0 := by
      unfold num_unfrozen
      omega
    exact ⟨hu, by unfold frozenLayers sliceDropLastPy; rw [hu, if_pos rfl]⟩

theorem layer_freezing_witness :
    frozenLayers 12 = List.range (12 - num_unfrozen 12) ∧
      num_unfrozen 2 = 0 ∧ frozenLayers 2 = [] :=
  ⟨(layer_freezing 12).1 (by decide), (layer_freezing 2).2.1 (by decide)⟩

/-! ### Loop bounds of the trainers (C10) -/

/-- iteration indices of the training loops: `for it in range(1, max_iters
+ 1)` in the reward-model trainer (src/examples/rlhf/train_reward.py line
96) and `for it in trange(1, max_iters + 1)` in the PPO trainer
(src/examples/rlhf/train_rlhf.py line 177); `trange` is `tqdm` around the
same `range`. -/
def trainerIterations (max_iters : Nat) : List Nat :=
  List.range' 1 max_iters

/-- C10: both trainers execute exactly `max_iters` training iterations,
the loop index ranging over `1 .. max_iters` inclusive, and then
terminate. -/
theorem trainer_iteration_count (max_iters : Nat) :
    (trainerIterations max_iters).length = max_iters ∧
    (∀ it ∈ trainerIterations max_iters, 1 ≤ it ∧ it ≤ max_iters) ∧
    (∀ it, 1 ≤ it → it ≤ max_iters → it ∈ trainerIterations max_iters) := by
  refine ⟨by simp [trainerIterations], ?_, ?_⟩
  · intro it hit
    have h := List.mem_range'_1.mp hit
    omega
  · intro it h1 h2
    exact List.mem_range'_1.mpr ⟨h1, by omega⟩

theorem trainer_iteration_count_witness :
    (trainerIterations 5).length = 5 ∧ 3 ∈ trainerIterations 5 :=
  ⟨(trainer_iteration_count 5).1,
    (trainer_iteration_count 5).2.2 3 (by decide) (by decide)⟩

end RLSpec
